import Mathlib

/-!
Verification of the flashcard bucket-scheduling core (`src/PS1/src/algorithm.ts`).

Shallow embedding conventions:
* A JS `Set<Flashcard>` is a `Finset Card` over an abstract card type `Card`
  with decidable equality (cards are compared by identity in the source, so an
  opaque atom type is the faithful model).
* A JS `Map<number, Set<Flashcard>>` (`BucketMap`) is an association list
  `List (Nat × Finset Card)` kept in insertion order; a real JS `Map` has
  pairwise-distinct keys, which theorems state as a `Nodup` hypothesis on the
  key list.  `Map.prototype.find`-style scans (`Array.from(m.entries()).find`)
  become `List.find?`, which also returns the first match in insertion order.
* JS numbers used as day counters are `Int` (negative days reach the code),
  bucket keys are `Nat` (the data model restricts them to non-negative
  integers); `%` on a non-negative dividend and positive divisor agrees with
  `Int.emod`.
* Functions that `throw` are embedded in `Except String`.
-/

/-- Modelled from the spec: the flashcard value object (`flashcards.ts` is not
part of the sources; the spec lists `front`, `back`, `hint`, `tags`).  Only
`hint` and `front` are read by the embedded code (`getHint`). -/
structure Flashcard where
  front : String
  back : String
  hint : String
  tags : List String
deriving DecidableEq

/-- Modelled from the spec: the three review outcomes of `AnswerDifficulty`. -/
inductive AnswerDifficulty where
  | Easy
  | Hard
  | Wrong
deriving DecidableEq

/-- Model of `BucketMap` = JS `Map<number, Set<Flashcard>>` in insertion order. -/
abbrev BucketMap (Card : Type) := List (Nat × Finset Card)

instance {ε α : Type} [DecidableEq ε] [DecidableEq α] : DecidableEq (Except ε α) := fun x y =>
  match x, y with
  | .error a, .error b =>
    if h : a = b then .isTrue (by rw [h]) else .isFalse (fun hEq => h (Except.error.inj hEq))
  | .error _, .ok _ => .isFalse (fun hEq => Except.noConfusion hEq)
  | .ok _, .error _ => .isFalse (fun hEq => Except.noConfusion hEq)
  | .ok a, .ok b =>
    if h : a = b then .isTrue (by rw [h]) else .isFalse (fun hEq => h (Except.ok.inj hEq))

section Model

variable {Card : Type} [DecidableEq Card]

/-- The key list of a bucket map (JS `buckets.keys()`, in insertion order). -/
def mapKeys (buckets : BucketMap Card) : List Nat :=
  buckets.map Prod.fst

/-- JS `buckets.get(k)`: the set stored at key `k`, if present. -/
def mapGet (buckets : BucketMap Card) (k : Nat) : Option (Finset Card) :=
  (buckets.find? (fun e => e.1 == k)).map Prod.snd

/-- Embedding of `toBucketSets` from `algorithm.ts`:
`maxBucket = size > 0 ? Math.max(...keys) : -1`, then for `i = 0..maxBucket`
push `buckets.get(i) || new Set()` (a JS `Set` is always truthy, so the `||`
branch is taken exactly when key `i` is absent). -/
def toBucketSets (buckets : BucketMap Card) : List (Finset Card) :=
  match (mapKeys buckets).max? with
  | none => []
  | some maxBucket => (List.range (maxBucket + 1)).map (fun i => (mapGet buckets i).getD ∅)

/-- The record `{minBucket, maxBucket}` returned by `getBucketRange`. -/
structure BucketRange where
  minBucket : Int
  maxBucket : Int
deriving DecidableEq

/-- Embedding of the `nonEmptyBuckets` list of `getBucketRange`:
`buckets.map((set, index) => set.size > 0 ? index : -1).filter(i => i !== -1)`
(the JS `.map` callback receives the element together with its index, which the
embedding reads off as `buckets.getD index ∅` for `index < buckets.length`). -/
def nonEmptyIndices (buckets : List (Finset Card)) : List Int :=
  ((List.range buckets.length).map
    (fun index => if 0 < (buckets.getD index ∅).card then (index : Int) else -1)).filter
    (fun index => index != -1)

/-- Embedding of `getBucketRange` from `algorithm.ts`: `undefined` when `nonEmptyBuckets`
is empty, else `Math.min(...nonEmptyBuckets)` / `Math.max(...nonEmptyBuckets)`
(spread min/max over a non-empty list = a fold of the binary min/max). -/
def getBucketRange (buckets : List (Finset Card)) : Option BucketRange :=
  match nonEmptyIndices buckets with
  | [] => none
  | x :: xs => some ⟨xs.foldl min x, xs.foldl max x⟩

/-- Embedding of `practice` from `algorithm.ts`: throw on `day < 0`, then for each index
`i < buckets.length` with `day % (i + 1) === 0` add every card of bucket `i`
to the selected set. -/
def practice (buckets : List (Finset Card)) (day : Int) : Except String (Finset Card) :=
  if day < 0 then .error "Day number must be non-negative"
  else .ok ((List.range buckets.length).foldl
    (fun (selectedCards : Finset Card) (i : Nat) =>
      if day % ((i : Int) + 1) = 0 then selectedCards ∪ buckets.getD i ∅ else selectedCards) ∅)

/-- The `bucketAdjustment` conditional of `update`:
`difficulty === Easy ? 1 : difficulty === Hard ? -1 : 0`. -/
def bucketAdjustment : AnswerDifficulty → Int
  | .Easy => 1
  | .Hard => -1
  | .Wrong => 0

/-- The clamped destination bucket of `update`:
`Math.max(0, Math.min(currentBucket + bucketAdjustment, buckets.size - 1))`
(`buckets.size` is the key count, here the length of the association list). -/
def newBucketIndex (currentBucket : Nat) (difficulty : AnswerDifficulty) (size : Nat) : Nat :=
  (max 0 (min ((currentBucket : Int) + bucketAdjustment difficulty) ((size : Int) - 1))).toNat

/-- Embedding of `update` from `algorithm.ts`, as a function on the *returned* map
(`new Map(buckets)` aliasing is modelled separately by `updateH`):
scan for the first entry whose set has the card, throw `"Card not found"` when
there is none; otherwise delete the card from that entry's set, create the
destination key with an empty set when absent (a JS `Map.set` on a fresh key
appends in insertion order), and add the card to the destination set. -/
def update (buckets : BucketMap Card) (card : Card) (difficulty : AnswerDifficulty) :
    Except String (BucketMap Card) :=
  match buckets.find? (fun e => card ∈ e.2) with
  | none => .error "Card not found"
  | some entry =>
    let currentBucket := entry.1
    let newBucket := newBucketIndex currentBucket difficulty buckets.length
    let afterDelete :=
      buckets.map (fun e => if e.1 = currentBucket then (e.1, e.2.erase card) else e)
    let withKey :=
      if afterDelete.any (fun e => e.1 == newBucket) then afterDelete
      else afterDelete ++ [(newBucket, ∅)]
    .ok (withKey.map (fun e => if e.1 = newBucket then (e.1, insert card e.2) else e))

/-- The bucket-map invariant of the data model: each flashcard appears in at
most one bucket across the whole map (two distinct entries never share a
card). -/
def atMostOneBucket (buckets : BucketMap Card) : Prop :=
  ∀ e₁ ∈ buckets, ∀ e₂ ∈ buckets, e₁ ≠ e₂ → ∀ x ∈ e₁.2, x ∉ e₂.2

instance atMostOneBucketDecidable (buckets : BucketMap Card) :
    Decidable (atMostOneBucket buckets) := by
  unfold atMostOneBucket
  exact inferInstance

/-- The whitespace characters removed by `String.prototype.trim` (ECMAScript
WhiteSpace ∪ LineTerminator: tab, LF, VT, FF, CR, space, NBSP, the Unicode
space separators, LS, PS, and ZWNBSP). -/
def isJsWhitespace (c : Char) : Bool :=
  c == ' ' || c == '\t' || c == '\n' || c == '\x0b' || c == '\x0c' || c == '\r' ||
  c == ' ' || c == ' ' ||
  (' ' ≤ c && c ≤ ' ') ||
  c == ' ' || c == ' ' || c == ' ' || c == ' ' ||
  c == '　' || c == '﻿'

/-- JS `s.trim()`: drop leading and trailing whitespace characters. -/
def jsTrim (s : String) : String :=
  ⟨((s.data.dropWhile isJsWhitespace).reverse.dropWhile isJsWhitespace).reverse⟩

/-- Embedding of `getHint` from `algorithm.ts`:
`card.hint.trim() || "Think about the key concepts related to " + card.front`
(a JS string is falsy exactly when it is empty, so the template branch is taken
iff the trimmed hint is empty). -/
def getHint (card : Flashcard) : String :=
  if jsTrim card.hint ≠ "" then jsTrim card.hint
  else "Think about the key concepts related to " ++ card.front

/-! ### Heap-aware model of `update`

JS `Set` objects are heap values: `new Map(buckets)` copies the key→set-object
entries but the two maps then share the same `Set` objects.  To reason about
what `update` does to its *input* map, the sets are put in an explicit store
(`SetStore`, indexed by reference) and bucket maps hold references. -/

/-- The heap of `Set` objects: reference `r` denotes `store.getD r ∅`. -/
abbrev SetStore (Card : Type) := List (Finset Card)

/-- A bucket map whose values are references into a `SetStore`. -/
abbrev RefBucketMap := List (Nat × Nat)

/-- Dereference a set reference. -/
def storeRead (store : SetStore Card) (r : Nat) : Finset Card :=
  store.getD r ∅

/-- JS `m.get(k)` under the store: the set object (by contents) at key `k`. -/
def mapGetH (store : SetStore Card) (buckets : RefBucketMap) (k : Nat) : Option (Finset Card) :=
  (buckets.find? (fun e => e.1 == k)).map (fun e => storeRead store e.2)

/-- Embedding of `update` from `algorithm.ts`, heap-aware: `new Map(buckets)` duplicates the
entry list but shares the set references, so `delete` and `add` on the copy's
sets act on the store that the input map also points into.  A fresh `Set` is
allocated at the end of the store. -/
def updateH (store : SetStore Card) (buckets : RefBucketMap) (card : Card)
    (difficulty : AnswerDifficulty) : Except String (SetStore Card × RefBucketMap) :=
  match buckets.find? (fun e => card ∈ storeRead store e.2) with
  | none => .error "Card not found"
  | some entry =>
    let currentBucket := entry.1
    let newBucket := newBucketIndex currentBucket difficulty buckets.length
    let newBuckets := buckets
    let store₁ :=
      match newBuckets.find? (fun e => e.1 == currentBucket) with
      | some e => store.set e.2 ((storeRead store e.2).erase card)
      | none => store
    let p :=
      if newBuckets.any (fun e => e.1 == newBucket) then (store₁, newBuckets)
      else (store₁ ++ [∅], newBuckets ++ [(newBucket, store₁.length)])
    let store₃ :=
      match p.2.find? (fun e => e.1 == newBucket) with
      | some e => p.1.set e.2 (insert card (storeRead p.1 e.2))
      | none => p.1
    .ok (store₃, p.2)

end Model

section Sanity

example : toBucketSets ([] : BucketMap Nat) = [] := by decide
example : toBucketSets ([(2, {7})] : BucketMap Nat) = [∅, ∅, {7}] := by decide
example : getBucketRange ([] : List (Finset Nat)) = none := by decide
example : getBucketRange ([∅, {1}, ∅, {2}] : List (Finset Nat)) = some ⟨1, 3⟩ := by decide
example : practice ([{1}, {2}, {3}] : List (Finset Nat)) 2 = .ok {1, 2} := by decide
example : practice ([{1}, {2}, {3}] : List (Finset Nat)) 1 = .ok {1} := by decide
example : practice ([{1}, {2}, {3}] : List (Finset Nat)) 0 = .ok {1, 2, 3} := by decide
example : practice ([{1}, {2}, {3}] : List (Finset Nat)) 6 = .ok {1, 2, 3} := by decide
example : practice ([] : List (Finset Nat)) (-1) = .error "Day number must be non-negative" := by
  decide
example : update ([(0, {5}), (1, ∅)] : BucketMap Nat) 5 .Easy = .ok [(0, ∅), (1, {5})] := by
  decide
example : update ([(1, {5}), (0, ∅)] : BucketMap Nat) 5 .Hard = .ok [(1, ∅), (0, {5})] := by
  decide
example : update ([] : BucketMap Nat) 5 .Easy = .error "Card not found" := by decide
example : update ([(5, {9}), (0, ∅)] : BucketMap Nat) 9 .Easy = .ok [(5, ∅), (0, ∅), (1, {9})] := by
  decide
example : updateH ([{0}, ∅] : SetStore Nat) [(0, 0), (1, 1)] 0 .Easy =
    .ok ([∅, {0}], [(0, 0), (1, 1)]) := by decide
example : getHint ⟨"f", "b", "  custom  ", []⟩ = "custom" := by decide
example : getHint ⟨"X?", "b", "   ", []⟩ = "Think about the key concepts related to X?" := by
  decide

end Sanity

section Theorems

variable {Card : Type} [DecidableEq Card]

/-- C7: `getHint(card)` returns the trimmed value of `card.hint` when that
trimmed value is non-empty, and otherwise returns
`"Think about the key concepts related to "` concatenated with `card.front`
verbatim; it is a total deterministic function of the card's `hint` and
`front` fields (and raises no error). -/
theorem getHint_spec (card : Flashcard) :
    (jsTrim card.hint ≠ "" → getHint card = jsTrim card.hint) ∧
    (jsTrim card.hint = "" →
      getHint card = "Think about the key concepts related to " ++ card.front) ∧
    (∀ c₂ : Flashcard, c₂.hint = card.hint → c₂.front = card.front →
      getHint c₂ = getHint card) := by
  refine ⟨fun h => ?_, fun h => ?_, fun c₂ hh hf => ?_⟩
  · simp [getHint, h]
  · simp [getHint, h]
  · simp [getHint, hh, hf]

theorem getHint_spec_witness :
    getHint ⟨"f", "b", " custom ", []⟩ = "custom" ∧
    getHint ⟨"X?", "b", "   ", []⟩ = "Think about the key concepts related to X?" := by
  constructor
  · rw [(getHint_spec ⟨"f", "b", " custom ", []⟩).1 (by decide)]; decide
  · rw [(getHint_spec ⟨"X?", "b", "   ", []⟩).2.1 (by decide)]; decide

/-- C8: `practice` fails with the invalid-argument error iff `day` is
negative; for every non-negative day it returns a result. -/
theorem practice_error_iff (buckets : List (Finset Card)) (day : Int) :
    (practice buckets day = .error "Day number must be non-negative" ↔ day < 0) ∧
    (0 ≤ day → ∃ s, practice buckets day = .ok s) := by
  unfold practice
  split
  · next h => exact ⟨⟨fun _ => h, fun _ => rfl⟩, fun h0 => absurd h (not_lt.2 h0)⟩
  · next h =>
    exact ⟨⟨fun hEq => Except.noConfusion hEq, fun hd => absurd hd h⟩, fun _ => ⟨_, rfl⟩⟩

theorem practice_error_iff_witness :
    practice ([{1}] : List (Finset Nat)) (-1) = .error "Day number must be non-negative" ∧
    ∃ s, practice ([{1}] : List (Finset Nat)) 0 = .ok s :=
  ⟨(practice_error_iff [{1}] (-1)).1.2 (by decide), (practice_error_iff [{1}] 0).2 (by decide)⟩

/-- C3: the claim that `update` leaves the input map unmodified is false on
the code: `new Map(buckets)` shares the `Set` objects with the input, so the
`delete`/`add` calls mutate the input map's sets.  On the input map
`{0 ↦ {card}, 1 ↦ ∅}` (store `[{0}, ∅]`, card `0`), after `update(⋯, Easy)`
the *input* map reads `{0 ↦ ∅, 1 ↦ {card}}`: its bucket assignment for the
card has changed. -/
theorem update_mutates_input_map :
    updateH ([{0}, ∅] : SetStore Nat) [(0, 0), (1, 1)] 0 .Easy =
        .ok ([∅, {0}], [(0, 0), (1, 1)]) ∧
    mapGetH ([{0}, ∅] : SetStore Nat) [(0, 0), (1, 1)] 0 = some {0} ∧
    mapGetH ([∅, {0}] : SetStore Nat) [(0, 0), (1, 1)] 0 = some ∅ ∧
    mapGetH ([∅, {0}] : SetStore Nat) [(0, 0), (1, 1)] 1 = some {0} := by
  decide

/-- The membership characterisation of the selection loop of `practice`. -/
theorem mem_practice_foldl (day : Int) (buckets : List (Finset Card)) (l : List Nat)
    (init : Finset Card) (x : Card) :
    x ∈ l.foldl (fun (s : Finset Card) (i : Nat) =>
        if day % ((i : Int) + 1) = 0 then s ∪ buckets.getD i ∅ else s) init ↔
      x ∈ init ∨ ∃ i ∈ l, day % ((i : Int) + 1) = 0 ∧ x ∈ buckets.getD i ∅ := by
  induction l generalizing init with
  | nil => simp
  | cons hd tl ih =>
    rw [List.foldl_cons, ih]
    by_cases h : day % ((hd : Int) + 1) = 0
    · simp only [if_pos h, Finset.mem_union, List.mem_cons]
      constructor
      · rintro ((hx | hx) | ⟨i, hi, hmod, hx⟩)
        · exact Or.inl hx
        · exact Or.inr ⟨hd, Or.inl rfl, h, hx⟩
        · exact Or.inr ⟨i, Or.inr hi, hmod, hx⟩
      · rintro (hx | ⟨i, hi | hi, hmod, hx⟩)
        · exact Or.inl (Or.inl hx)
        · exact Or.inl (Or.inr (hi ▸ hx))
        · exact Or.inr ⟨i, hi, hmod, hx⟩
    · simp only [if_neg h, List.mem_cons]
      constructor
      · rintro (hx | ⟨i, hi, hmod, hx⟩)
        · exact Or.inl hx
        · exact Or.inr ⟨i, Or.inr hi, hmod, hx⟩
      · rintro (hx | ⟨i, hi | hi, hmod, hx⟩)
        · exact Or.inl hx
        · exact absurd (hi ▸ hmod) h
        · exact Or.inr ⟨i, hi, hmod, hx⟩

/-- C1: for every bucket array and non-negative day, `practice` returns
exactly the union of the sets at the indices `i` with `day % (i + 1) = 0`
and nothing else; in particular the set at index 0 is always included. -/
theorem practice_spec (buckets : List (Finset Card)) (day : Int) (hday : 0 ≤ day) :
    ∃ s, practice buckets day = .ok s ∧
      (∀ x, x ∈ s ↔
        ∃ i, i < buckets.length ∧ day % ((i : Int) + 1) = 0 ∧ x ∈ buckets.getD i ∅) ∧
      (0 < buckets.length → buckets.getD 0 ∅ ⊆ s) := by
  have hnot : ¬ day < 0 := not_lt.2 hday
  refine ⟨(List.range buckets.length).foldl
      (fun (s : Finset Card) (i : Nat) =>
        if day % ((i : Int) + 1) = 0 then s ∪ buckets.getD i ∅ else s) ∅,
    by unfold practice; rw [if_neg hnot], fun x => ?_, fun hlen x hx => ?_⟩
  · rw [mem_practice_foldl]
    simp [List.mem_range]
  · rw [mem_practice_foldl]
    exact Or.inr ⟨0, List.mem_range.2 hlen, by simp, hx⟩

theorem practice_spec_witness :
    ∃ s, practice ([{1}, {2}, {3}] : List (Finset Nat)) 2 = .ok s ∧
      (∀ x, x ∈ s ↔ ∃ i, i < ([{1}, {2}, {3}] : List (Finset Nat)).length ∧
        (2 : Int) % ((i : Int) + 1) = 0 ∧ x ∈ ([{1}, {2}, {3}] : List (Finset Nat)).getD i ∅) ∧
      (0 < ([{1}, {2}, {3}] : List (Finset Nat)).length →
        ([{1}, {2}, {3}] : List (Finset Nat)).getD 0 ∅ ⊆ s) :=
  practice_spec _ _ (by decide)

/-- C5: `toBucketSets(M)` has length 0 if `M` is empty and otherwise length
`(maximum key present) + 1`; index `i` holds the set stored at key `i` when
the key is present and the empty set otherwise (no error for any bucket
map). -/
theorem toBucketSets_spec (buckets : BucketMap Card) :
    (buckets = [] → toBucketSets buckets = []) ∧
    (buckets ≠ [] → ∃ m : Nat, (mapKeys buckets).max? = some m) ∧
    (∀ m : Nat, (mapKeys buckets).max? = some m → (toBucketSets buckets).length = m + 1) ∧
    (∀ i, i < (toBucketSets buckets).length →
      (toBucketSets buckets).getD i ∅ = (mapGet buckets i).getD ∅) ∧
    (∀ i, mapGet buckets i = none ↔ i ∉ mapKeys buckets) := by
  refine ⟨fun h => ?_, fun h => ?_, fun m h => ?_, fun i hi => ?_, fun i => ?_⟩
  · subst h; rfl
  · have hk : mapKeys buckets ≠ [] := by
      simpa [mapKeys] using h
    cases hm : (mapKeys buckets).max? with
    | none => exact absurd (List.max?_eq_none_iff.mp hm) hk
    | some m => exact ⟨m, rfl⟩
  · simp [toBucketSets, h]
  · cases hm : (mapKeys buckets).max? with
    | none => simp [toBucketSets, hm] at hi
    | some m =>
      simp only [toBucketSets, hm, List.length_map, List.length_range] at hi ⊢
      rw [List.getD_eq_getElem?_getD, List.getElem?_map, List.getElem?_range hi]
      rfl
  · simp only [mapGet, Option.map_eq_none', List.find?_eq_none, mapKeys, List.mem_map]
    constructor
    · rintro h ⟨e, he, rfl⟩
      exact h e he (by simp)
    · intro h e he hbeq
      exact h ⟨e, he, by simpa using hbeq⟩

theorem toBucketSets_spec_witness :
    toBucketSets ([] : BucketMap Nat) = [] ∧
    (toBucketSets ([(2, {7})] : BucketMap Nat)).length = 2 + 1 ∧
    (toBucketSets ([(2, {7})] : BucketMap Nat)).getD 1 ∅ = (mapGet [(2, {7})] 1).getD ∅ :=
  ⟨(toBucketSets_spec []).1 rfl,
   (toBucketSets_spec [(2, {7})]).2.2.1 2 (by decide),
   (toBucketSets_spec [(2, {7})]).2.2.2.1 1 (by decide)⟩

/-- The result of folding `min` over a list is one of the seed or the
elements (`Math.min(...arr)` picks an element of the argument list). -/
theorem foldl_min_mem {α : Type} [LinearOrder α] (x : α) (xs : List α) :
    xs.foldl min x ∈ x :: xs := by
  induction xs generalizing x with
  | nil => simp
  | cons hd tl ih =>
    rw [List.foldl_cons]
    rcases List.mem_cons.mp (ih (min x hd)) with h | h
    · rcases min_choice x hd with hm | hm
      · rw [h, hm]; exact List.mem_cons_self _ _
      · rw [h, hm]; exact List.mem_cons_of_mem _ (List.mem_cons_self _ _)
    · exact List.mem_cons_of_mem _ (List.mem_cons_of_mem _ h)

/-- The result of folding `min` is a lower bound of seed and elements. -/
theorem foldl_min_le {α : Type} [LinearOrder α] (x : α) (xs : List α) :
    ∀ y ∈ x :: xs, xs.foldl min x ≤ y := by
  induction xs generalizing x with
  | nil =>
    intro y hy
    rw [List.mem_singleton] at hy
    simp [hy]
  | cons hd tl ih =>
    intro y hy
    rw [List.foldl_cons]
    rcases List.mem_cons.mp hy with rfl | hy'
    · exact le_trans (ih (min y hd) _ (List.mem_cons_self _ _)) (min_le_left _ _)
    · rcases List.mem_cons.mp hy' with rfl | hy''
      · exact le_trans (ih (min x y) _ (List.mem_cons_self _ _)) (min_le_right _ _)
      · exact ih (min x hd) y (List.mem_cons_of_mem _ hy'')

/-- The result of folding `max` over a list is one of the seed or the
elements. -/
theorem foldl_max_mem {α : Type} [LinearOrder α] (x : α) (xs : List α) :
    xs.foldl max x ∈ x :: xs := by
  induction xs generalizing x with
  | nil => simp
  | cons hd tl ih =>
    rw [List.foldl_cons]
    rcases List.mem_cons.mp (ih (max x hd)) with h | h
    · rcases max_choice x hd with hm | hm
      · rw [h, hm]; exact List.mem_cons_self _ _
      · rw [h, hm]; exact List.mem_cons_of_mem _ (List.mem_cons_self _ _)
    · exact List.mem_cons_of_mem _ (List.mem_cons_of_mem _ h)

/-- The result of folding `max` is an upper bound of seed and elements. -/
theorem le_foldl_max {α : Type} [LinearOrder α] (x : α) (xs : List α) :
    ∀ y ∈ x :: xs, y ≤ xs.foldl max x := by
  induction xs generalizing x with
  | nil =>
    intro y hy
    rw [List.mem_singleton] at hy
    simp [hy]
  | cons hd tl ih =>
    intro y hy
    rw [List.foldl_cons]
    rcases List.mem_cons.mp hy with rfl | hy'
    · exact le_trans (le_max_left _ _) (ih (max y hd) _ (List.mem_cons_self _ _))
    · rcases List.mem_cons.mp hy' with rfl | hy''
      · exact le_trans (le_max_right _ _) (ih (max x y) _ (List.mem_cons_self _ _))
      · exact ih (max x hd) y (List.mem_cons_of_mem _ hy'')

/-- Evaluation of `List.getD` at an in-range index is the indexed element. -/
theorem getD_eq_of_lt {α : Type} (l : List α) (d : α) (i : Nat) (hi : i < l.length) :
    l.getD i d = l[i] := by
  rw [List.getD_eq_getElem?_getD, List.getElem?_eq_getElem hi, Option.getD_some]

/-- Membership in the `nonEmptyBuckets` list of `getBucketRange`: exactly the
(cast) indices of the non-empty sets. -/
theorem mem_nonEmptyIndices (buckets : List (Finset Card)) (j : Int) :
    j ∈ nonEmptyIndices buckets ↔
      ∃ i : Nat, i < buckets.length ∧ (buckets.getD i ∅).Nonempty ∧ j = (i : Int) := by
  unfold nonEmptyIndices
  simp only [List.mem_filter, List.mem_map, List.mem_range, bne_iff_ne, ne_eq]
  constructor
  · rintro ⟨⟨i, hi, hfi⟩, hne⟩
    by_cases hcard : 0 < (buckets.getD i ∅).card
    · rw [if_pos hcard] at hfi
      exact ⟨i, hi, Finset.card_pos.mp hcard, hfi.symm⟩
    · rw [if_neg hcard] at hfi
      exact absurd hfi.symm hne
  · rintro ⟨i, hi, hne', rfl⟩
    refine ⟨⟨i, hi, ?_⟩, ?_⟩
    · rw [if_pos (Finset.card_pos.mpr hne')]
    · intro h
      omega

/-- C6: `getBucketRange` returns absent iff the array has length 0 or only
empty sets; otherwise `{minBucket, maxBucket}` are the lowest and highest
indices holding a non-empty set, and `minBucket ≤ maxBucket`. -/
theorem getBucketRange_spec (buckets : List (Finset Card)) :
    (getBucketRange buckets = none ↔ ∀ s ∈ buckets, s = ∅) ∧
    (∀ r, getBucketRange buckets = some r →
      ∃ mn mx : Nat, r = ⟨(mn : Int), (mx : Int)⟩ ∧
        mn < buckets.length ∧ mx < buckets.length ∧
        (buckets.getD mn ∅).Nonempty ∧ (buckets.getD mx ∅).Nonempty ∧ mn ≤ mx ∧
        (∀ i, i < buckets.length → (buckets.getD i ∅).Nonempty → mn ≤ i ∧ i ≤ mx)) := by
  have hnone_iff : getBucketRange buckets = none ↔ nonEmptyIndices buckets = [] := by
    unfold getBucketRange
    cases nonEmptyIndices buckets <;> simp
  have hempty_iff : nonEmptyIndices buckets = [] ↔ ∀ s ∈ buckets, s = ∅ := by
    rw [List.eq_nil_iff_forall_not_mem]
    constructor
    · intro h s hs
      obtain ⟨i, hi, hgi⟩ := List.mem_iff_getElem.mp hs
      by_contra hne
      refine h (i : Int) ((mem_nonEmptyIndices _ _).mpr ⟨i, hi, ?_, rfl⟩)
      rw [getD_eq_of_lt _ _ _ hi, hgi]
      exact Finset.nonempty_iff_ne_empty.mpr hne
    · intro h j hj
      obtain ⟨i, hi, hne', rfl⟩ := (mem_nonEmptyIndices _ _).mp hj
      have hmem : buckets.getD i ∅ ∈ buckets := by
        rw [getD_eq_of_lt _ _ _ hi]
        exact List.getElem_mem hi
      exact Finset.nonempty_iff_ne_empty.mp hne' (h _ hmem)
  refine ⟨hnone_iff.trans hempty_iff, fun r hr => ?_⟩
  unfold getBucketRange at hr
  cases hL : nonEmptyIndices buckets with
  | nil => rw [hL] at hr; exact absurd hr (by simp)
  | cons x xs =>
    rw [hL] at hr
    have hrr : (⟨xs.foldl min x, xs.foldl max x⟩ : BucketRange) = r := Option.some.inj hr
    have hmem_min := foldl_min_mem x xs
    have hmem_max := foldl_max_mem x xs
    rw [← hL] at hmem_min hmem_max
    obtain ⟨mn, hmn_len, hmn_ne, hmn_eq⟩ := (mem_nonEmptyIndices _ _).mp hmem_min
    obtain ⟨mx, hmx_len, hmx_ne, hmx_eq⟩ := (mem_nonEmptyIndices _ _).mp hmem_max
    refine ⟨mn, mx, ?_, hmn_len, hmx_len, hmn_ne, hmx_ne, ?_, ?_⟩
    · rw [← hrr, hmn_eq, hmx_eq]
    · have hle := foldl_min_le x xs _ (foldl_max_mem x xs)
      rw [hmn_eq, hmx_eq] at hle
      exact_mod_cast hle
    · intro i hi hne'
      have hmemL : (i : Int) ∈ x :: xs := by
        have hin : (i : Int) ∈ nonEmptyIndices buckets :=
          (mem_nonEmptyIndices _ _).mpr ⟨i, hi, hne', rfl⟩
        rwa [hL] at hin
      have h1 := foldl_min_le x xs _ hmemL
      have h2 := le_foldl_max x xs _ hmemL
      rw [hmn_eq] at h1
      rw [hmx_eq] at h2
      exact ⟨by exact_mod_cast h1, by exact_mod_cast h2⟩

theorem getBucketRange_spec_witness :
    ∃ mn mx : Nat, (⟨1, 3⟩ : BucketRange) = ⟨(mn : Int), (mx : Int)⟩ ∧
      mn < ([∅, {1}, ∅, {2}] : List (Finset Nat)).length ∧
      mx < ([∅, {1}, ∅, {2}] : List (Finset Nat)).length ∧
      (([∅, {1}, ∅, {2}] : List (Finset Nat)).getD mn ∅).Nonempty ∧
      (([∅, {1}, ∅, {2}] : List (Finset Nat)).getD mx ∅).Nonempty ∧ mn ≤ mx ∧
      (∀ i, i < ([∅, {1}, ∅, {2}] : List (Finset Nat)).length →
        (([∅, {1}, ∅, {2}] : List (Finset Nat)).getD i ∅).Nonempty → mn ≤ i ∧ i ≤ mx) :=
  (getBucketRange_spec [∅, {1}, ∅, {2}]).2 ⟨1, 3⟩ (by decide)

/-- In a map whose keys are pairwise distinct, two entries with the same key
are the same entry. -/
theorem entry_eq_of_keys_nodup (buckets : BucketMap Card)
    (hN : (mapKeys buckets).Nodup) (e₁ e₂ : Nat × Finset Card)
    (h₁ : e₁ ∈ buckets) (h₂ : e₂ ∈ buckets) (hk : e₁.1 = e₂.1) : e₁ = e₂ := by
  induction buckets with
  | nil => cases h₁
  | cons hd tl ih =>
    simp only [mapKeys, List.map_cons, List.nodup_cons] at hN
    obtain ⟨hhd, htl⟩ := hN
    rcases List.mem_cons.mp h₁ with rfl | h₁'
    · rcases List.mem_cons.mp h₂ with rfl | h₂'
      · rfl
      · exact absurd (hk ▸ List.mem_map.mpr ⟨e₂, h₂', rfl⟩) hhd
    · rcases List.mem_cons.mp h₂ with rfl | h₂'
      · exact absurd (hk ▸ List.mem_map.mpr ⟨e₁, h₁', rfl⟩) hhd
      · exact ih htl h₁' h₂'

/-- Under the at-most-one-bucket invariant, the `update` scan finds exactly
the entry that holds the card. -/
theorem find?_eq_of_atMostOne (buckets : BucketMap Card) (card : Card)
    (hinv : atMostOneBucket buckets) (b : Nat) (s : Finset Card)
    (hmem : (b, s) ∈ buckets) (hcard : card ∈ s) :
    buckets.find? (fun e => card ∈ e.2) = some (b, s) := by
  cases hf : buckets.find? (fun e => card ∈ e.2) with
  | none =>
    rw [List.find?_eq_none] at hf
    exact absurd hcard (by simpa using hf (b, s) hmem)
  | some a =>
    have ha := List.find?_some hf
    have hamem := List.mem_of_find?_eq_some hf
    by_cases hab : a = (b, s)
    · rw [hab]
    · exact absurd hcard (hinv a hamem (b, s) hmem hab card (by simpa using ha))

/-- C4: `update` fails with the `"Card not found"` error iff the card is in
no bucket of the input map; when the card is present, no error is raised. -/
theorem update_error_iff (buckets : BucketMap Card) (card : Card)
    (difficulty : AnswerDifficulty) :
    (update buckets card difficulty = .error "Card not found" ↔ ∀ e ∈ buckets, card ∉ e.2) ∧
    ((∃ e ∈ buckets, card ∈ e.2) → ∃ m, update buckets card difficulty = .ok m) := by
  unfold update
  cases hf : buckets.find? (fun e => card ∈ e.2) with
  | none =>
    rw [List.find?_eq_none] at hf
    constructor
    · exact ⟨fun _ e he => by simpa using hf e he, fun _ => rfl⟩
    · rintro ⟨e, he, hc⟩
      exact absurd hc (by simpa using hf e he)
  | some a =>
    constructor
    · constructor
      · intro h
        exact absurd h (by simp)
      · intro h
        have ha := List.find?_some hf
        have hamem := List.mem_of_find?_eq_some hf
        exact absurd (by simpa using ha) (h a hamem)
    · exact fun _ => ⟨_, rfl⟩

theorem update_error_iff_witness :
    update ([] : BucketMap Nat) 5 .Easy = .error "Card not found" ∧
    ∃ m, update ([(0, {5})] : BucketMap Nat) 5 .Easy = .ok m :=
  ⟨(update_error_iff [] 5 .Easy).1.mpr (by simp),
   (update_error_iff [(0, {5})] 5 .Easy).2 ⟨(0, {5}), by simp, by simp⟩⟩

/-- The workhorse description of a successful `update`: the key list stays
duplicate-free, the at-most-one-bucket invariant is preserved, and the card
ends up stored under the clamped destination key `newBucketIndex`. -/
theorem update_ok_spec (buckets : BucketMap Card) (card : Card)
    (difficulty : AnswerDifficulty) (b : Nat) (s : Finset Card)
    (hN : (mapKeys buckets).Nodup) (hinv : atMostOneBucket buckets)
    (hmem : (b, s) ∈ buckets) (hcard : card ∈ s) :
    ∃ m, update buckets card difficulty = .ok m ∧
      (mapKeys m).Nodup ∧ atMostOneBucket m ∧
      ∃ t, mapGet m (newBucketIndex b difficulty buckets.length) = some t ∧ card ∈ t := by
  have hfind := find?_eq_of_atMostOne buckets card hinv b s hmem hcard
  set nb := newBucketIndex b difficulty buckets.length with hnb
  set afterDelete := buckets.map
    (fun e => if e.1 = b then (e.1, e.2.erase card) else e) with hAD
  set withKey := (if afterDelete.any (fun e => e.1 == nb) then afterDelete
    else afterDelete ++ [(nb, ∅)]) with hWK
  set M := withKey.map
    (fun e => if e.1 = nb then (e.1, insert card e.2) else e) with hM
  have hupd : update buckets card difficulty = .ok M := by
    rw [hM, hWK, hAD, hnb]
    unfold update
    rw [hfind]
  have hfst_f : ∀ e : Nat × Finset Card,
      ((if e.1 = b then (e.1, e.2.erase card) else e) : Nat × Finset Card).1 = e.1 := by
    intro e; by_cases h : e.1 = b <;> simp [h]
  have hsub_f : ∀ e : Nat × Finset Card,
      ((if e.1 = b then (e.1, e.2.erase card) else e) : Nat × Finset Card).2 ⊆ e.2 := by
    intro e; by_cases h : e.1 = b <;> simp [h, Finset.erase_subset]
  have hkeysAD : mapKeys afterDelete = mapKeys buckets := by
    rw [hAD]; simp only [mapKeys, List.map_map]
    exact List.map_congr_left (fun e _ => hfst_f e)
  have hno_card_AD : ∀ e ∈ afterDelete, card ∉ e.2 := by
    rw [hAD]
    intro e he
    obtain ⟨e₀, he₀, rfl⟩ := List.mem_map.mp he
    by_cases h0 : e₀.1 = b
    · simp [h0, Finset.not_mem_erase]
    · rw [if_neg h0]
      intro hc
      have hne : (b, s) ≠ e₀ := fun hEq => h0 (by rw [← hEq])
      exact hinv (b, s) hmem e₀ he₀ hne card hcard hc
  have hinv_AD : atMostOneBucket afterDelete := by
    rw [hAD]
    intro e₁ h₁ e₂ h₂ hne x hx hx2
    obtain ⟨o₁, ho₁, rfl⟩ := List.mem_map.mp h₁
    obtain ⟨o₂, ho₂, rfl⟩ := List.mem_map.mp h₂
    have hone : o₁ ≠ o₂ := fun h => hne (by rw [h])
    exact hinv o₁ ho₁ o₂ ho₂ hone x (hsub_f o₁ hx) (hsub_f o₂ hx2)
  have hWKfacts : (mapKeys withKey).Nodup ∧ atMostOneBucket withKey ∧
      (∀ e ∈ withKey, card ∉ e.2) ∧ ∃ w ∈ withKey, w.1 = nb := by
    rw [hWK]
    by_cases hany : afterDelete.any (fun e => e.1 == nb) = true
    · rw [if_pos hany]
      refine ⟨by rw [hkeysAD]; exact hN, hinv_AD, hno_card_AD, ?_⟩
      obtain ⟨w, hw, hwb⟩ := List.any_eq_true.mp hany
      exact ⟨w, hw, by simpa using hwb⟩
    · rw [if_neg hany]
      have hnb_not : nb ∉ mapKeys afterDelete := by
        intro hmem'
        obtain ⟨e, he, hek⟩ := List.mem_map.mp hmem'
        exact hany (List.any_eq_true.mpr ⟨e, he, by simp [hek]⟩)
      refine ⟨?_, ?_, ?_,
        ⟨(nb, ∅), List.mem_append_right _ (List.mem_singleton_self _), rfl⟩⟩
      · show (mapKeys (afterDelete ++ [(nb, ∅)])).Nodup
        simp only [mapKeys, List.map_append, List.map_cons, List.map_nil]
        rw [List.nodup_append]
        refine ⟨by rw [show List.map Prod.fst afterDelete = mapKeys afterDelete from rfl,
          hkeysAD]; exact hN, List.nodup_singleton _, ?_⟩
        intro a ha hb
        rw [List.mem_singleton] at hb
        subst hb
        exact hnb_not ha
      · intro e₁ h₁ e₂ h₂ hne x hx hx2
        rcases List.mem_append.mp h₁ with h₁' | h₁' <;>
          rcases List.mem_append.mp h₂ with h₂' | h₂'
        · exact hinv_AD e₁ h₁' e₂ h₂' hne x hx hx2
        · rw [List.mem_singleton] at h₂'
          subst h₂'
          simp at hx2
        · rw [List.mem_singleton] at h₁'
          subst h₁'
          simp at hx
        · rw [List.mem_singleton] at h₁' h₂'
          exact hne (by rw [h₁', h₂'])
      · intro e he
        rcases List.mem_append.mp he with he' | he'
        · exact hno_card_AD e he'
        · rw [List.mem_singleton] at he'
          subst he'
          simp
  obtain ⟨hN_WK, hinv_WK, hno_WK, w, hw, hwkey⟩ := hWKfacts
  have hfst_g : ∀ e : Nat × Finset Card,
      ((if e.1 = nb then (e.1, insert card e.2) else e) : Nat × Finset Card).1 = e.1 := by
    intro e; by_cases h : e.1 = nb <;> simp [h]
  have hN_M : (mapKeys M).Nodup := by
    have hkeys_M : mapKeys M = mapKeys withKey := by
      rw [hM]; simp only [mapKeys, List.map_map]
      exact List.map_congr_left (fun e _ => hfst_g e)
    rw [hkeys_M]; exact hN_WK
  have hinv_M : atMostOneBucket M := by
    rw [hM]
    intro e₁ h₁ e₂ h₂ hne x hx hx2
    obtain ⟨a₁, ha₁, rfl⟩ := List.mem_map.mp h₁
    obtain ⟨a₂, ha₂, rfl⟩ := List.mem_map.mp h₂
    have hane : a₁ ≠ a₂ := fun h => hne (by rw [h])
    have hkne : a₁.1 ≠ a₂.1 := fun h =>
      hane (entry_eq_of_keys_nodup _ hN_WK a₁ a₂ ha₁ ha₂ h)
    by_cases hxc : x = card
    · subst hxc
      have h1nb : a₁.1 = nb := by
        by_contra hne1
        rw [if_neg hne1] at hx
        exact hno_WK a₁ ha₁ hx
      have h2nb : a₂.1 = nb := by
        by_contra hne2
        rw [if_neg hne2] at hx2
        exact hno_WK a₂ ha₂ hx2
      exact hkne (h1nb.trans h2nb.symm)
    · have hx1' : x ∈ a₁.2 := by
        by_cases h1 : a₁.1 = nb
        · rw [if_pos h1] at hx
          rcases Finset.mem_insert.mp hx with h | h
          · exact absurd h hxc
          · exact h
        · rwa [if_neg h1] at hx
      have hx2' : x ∈ a₂.2 := by
        by_cases h2 : a₂.1 = nb
        · rw [if_pos h2] at hx2
          rcases Finset.mem_insert.mp hx2 with h | h
          · exact absurd h hxc
          · exact h
        · rwa [if_neg h2] at hx2
      exact hinv_WK a₁ ha₁ a₂ ha₂ hane x hx1' hx2'
  have hgw_mem : (if w.1 = nb then (w.1, insert card w.2) else w) ∈ M := by
    rw [hM]; exact List.mem_map.mpr ⟨w, hw, rfl⟩
  rw [if_pos hwkey] at hgw_mem
  have hfind2 : ∃ a, M.find? (fun e => e.1 == nb) = some a := by
    have hsome : (M.find? (fun e => e.1 == nb)).isSome := by
      rw [List.find?_isSome]
      exact ⟨(w.1, insert card w.2), hgw_mem, by simp [hwkey]⟩
    exact Option.isSome_iff_exists.mp hsome
  obtain ⟨a, hfa⟩ := hfind2
  have hworks := List.find?_some hfa
  have hamem := List.mem_of_find?_eq_some hfa
  have hcard_a : card ∈ a.2 := by
    rw [hM] at hamem
    obtain ⟨a₀, ha₀, rfl⟩ := List.mem_map.mp hamem
    have hk : a₀.1 = nb := by
      have h : ((if a₀.1 = nb then (a₀.1, insert card a₀.2) else a₀) :
          Nat × Finset Card).1 = nb := by simpa using hworks
      rwa [hfst_g a₀] at h
    rw [if_pos hk]
    exact Finset.mem_insert_self _ _
  refine ⟨M, hupd, hN_M, hinv_M, a.2, ?_, hcard_a⟩
  unfold mapGet
  rw [hfa]
  rfl

/-- C2: on a bucket map satisfying the data-model invariants and containing
the reviewed card in bucket `b`, `update` stores the card at index
`max(0, min(b + d, size − 1))` where `size` is the key count and `d` is
+1 for Easy, −1 for Hard and 0 for Wrong; the resulting index is never at or
above the key count (and, being a `Nat`, never below 0). -/
theorem update_places_card (buckets : BucketMap Card) (card : Card)
    (difficulty : AnswerDifficulty) (b : Nat) (s : Finset Card)
    (hN : (mapKeys buckets).Nodup) (hinv : atMostOneBucket buckets)
    (hmem : (b, s) ∈ buckets) (hcard : card ∈ s) :
    ((newBucketIndex b difficulty buckets.length : Int) =
      max 0 (min ((b : Int) + bucketAdjustment difficulty) ((buckets.length : Int) - 1))) ∧
    (bucketAdjustment .Easy = 1 ∧ bucketAdjustment .Hard = -1 ∧
      bucketAdjustment .Wrong = 0) ∧
    newBucketIndex b difficulty buckets.length < buckets.length ∧
    ∃ m, update buckets card difficulty = .ok m ∧
      ∃ t, mapGet m (newBucketIndex b difficulty buckets.length) = some t ∧ card ∈ t := by
  have hlen : 1 ≤ buckets.length := List.length_pos.mpr (List.ne_nil_of_mem hmem)
  refine ⟨Int.toNat_of_nonneg (le_max_left 0 _), ⟨rfl, rfl, rfl⟩, ?_, ?_⟩
  · unfold newBucketIndex
    set X := max 0 (min ((b : Int) + bucketAdjustment difficulty)
      ((buckets.length : Int) - 1)) with hX
    have h1 : (0 : Int) ≤ X := le_max_left _ _
    have h2 : X ≤ (buckets.length : Int) - 1 :=
      max_le (by omega) (min_le_right _ _)
    omega
  · obtain ⟨m, hupd, _, _, t, hget, hc⟩ :=
      update_ok_spec buckets card difficulty b s hN hinv hmem hcard
    exact ⟨m, hupd, t, hget, hc⟩

theorem update_places_card_witness :
    ((newBucketIndex 0 .Easy ([(0, {3}), (1, ∅)] : BucketMap Nat).length : Int) =
      max 0 (min (((0 : Nat) : Int) + bucketAdjustment .Easy)
        ((([(0, {3}), (1, ∅)] : BucketMap Nat).length : Int) - 1))) ∧
    (bucketAdjustment .Easy = 1 ∧ bucketAdjustment .Hard = -1 ∧
      bucketAdjustment .Wrong = 0) ∧
    newBucketIndex 0 .Easy ([(0, {3}), (1, ∅)] : BucketMap Nat).length <
      ([(0, {3}), (1, ∅)] : BucketMap Nat).length ∧
    ∃ m, update ([(0, {3}), (1, ∅)] : BucketMap Nat) 3 .Easy = .ok m ∧
      ∃ t, mapGet m (newBucketIndex 0 .Easy ([(0, {3}), (1, ∅)] : BucketMap Nat).length) =
        some t ∧ 3 ∈ t :=
  update_places_card _ 3 .Easy 0 {3} (by decide) (by decide) (by decide) (by decide)

/-- C9: `update` on a map where each card is in at most one bucket yields a
map with the same property, and the reviewed card ends up in exactly one
bucket of the result. -/
theorem update_preserves_invariant (buckets : BucketMap Card) (card : Card)
    (difficulty : AnswerDifficulty)
    (hN : (mapKeys buckets).Nodup) (hinv : atMostOneBucket buckets)
    (hpres : ∃ e ∈ buckets, card ∈ e.2) :
    ∃ m, update buckets card difficulty = .ok m ∧ atMostOneBucket m ∧
      ∃ e ∈ m, card ∈ e.2 ∧ ∀ e₂ ∈ m, card ∈ e₂.2 → e₂ = e := by
  obtain ⟨⟨b, s⟩, hmem, hcard⟩ := hpres
  obtain ⟨m, hupd, hNm, hinvm, t, hget, hc⟩ :=
    update_ok_spec buckets card difficulty b s hN hinv hmem hcard
  unfold mapGet at hget
  cases hf : m.find? (fun e => e.1 == newBucketIndex b difficulty buckets.length) with
  | none =>
    rw [hf] at hget
    exact absurd hget (by simp)
  | some a =>
    rw [hf] at hget
    have hat : a.2 = t := by simpa using hget
    have hamem := List.mem_of_find?_eq_some hf
    refine ⟨m, hupd, hinvm, a, hamem, by rw [hat]; exact hc, ?_⟩
    intro e₂ he₂ hc₂
    by_contra hne
    exact hinvm e₂ he₂ a hamem hne card hc₂ (by rw [hat]; exact hc)

theorem update_preserves_invariant_witness :
    ∃ m, update ([(0, {3}), (1, ∅)] : BucketMap Nat) 3 .Easy = .ok m ∧ atMostOneBucket m ∧
      ∃ e ∈ m, 3 ∈ e.2 ∧ ∀ e₂ ∈ m, 3 ∈ e₂.2 → e₂ = e :=
  update_preserves_invariant _ 3 .Easy (by decide) (by decide)
    ⟨(0, {3}), by decide, by decide⟩

/-- C10: when the reviewed card sits in a bucket index at least as large as
the key count, an `Easy` review *demotes* it: the clamp ceiling is
`key count − 1`, which is strictly below the old bucket. -/
theorem update_easy_demotes (buckets : BucketMap Card) (card : Card)
    (b : Nat) (s : Finset Card)
    (hN : (mapKeys buckets).Nodup) (hinv : atMostOneBucket buckets)
    (hmem : (b, s) ∈ buckets) (hcard : card ∈ s) (hb : buckets.length ≤ b) :
    ∃ m, update buckets card .Easy = .ok m ∧
      (∃ t, mapGet m (buckets.length - 1) = some t ∧ card ∈ t) ∧
      buckets.length - 1 < b := by
  have hlen : 1 ≤ buckets.length := List.length_pos.mpr (List.ne_nil_of_mem hmem)
  have hnb : newBucketIndex b .Easy buckets.length = buckets.length - 1 := by
    unfold newBucketIndex
    simp only [bucketAdjustment]
    rw [min_eq_right (by omega), max_eq_right (by omega)]
    omega
  obtain ⟨m, hupd, _, _, t, hget, hc⟩ :=
    update_ok_spec buckets card .Easy b s hN hinv hmem hcard
  rw [hnb] at hget
  exact ⟨m, hupd, ⟨t, hget, hc⟩, by omega⟩

theorem update_easy_demotes_witness :
    ∃ m, update ([(5, {9}), (0, ∅)] : BucketMap Nat) 9 .Easy = .ok m ∧
      (∃ t, mapGet m (([(5, {9}), (0, ∅)] : BucketMap Nat).length - 1) = some t ∧ 9 ∈ t) ∧
      ([(5, {9}), (0, ∅)] : BucketMap Nat).length - 1 < 5 :=
  update_easy_demotes _ 9 5 {9} (by decide) (by decide) (by decide) (by decide) (by decide)

end Theorems
